import Mathlib

/-!
Verification development for the RENEC extraction and registry-building
pipeline (`packages/renec-client/src/scripts`).

The Python sources are shallowly embedded as executable Lean functions:

* `normalize_name`, `extract_entity_info` — from `build_master_registries.py`
  (regular expressions are embedded as explicit backtracking matchers over
  `List Char`);
* `build_ece_registry`, `build_ccap_registry`, `build_ec_ece_matrix` — the
  registry builder (Python dicts are modelled as insertion-ordered
  association lists, Python sets as insertion-ordered duplicate-free lists,
  and the stable `list.sort` as a stable insertion sort);
* the batch coordinator loop of `extract_certifiers_batch.py` and the loop
  of `extract_ec_details_playwright.py` (the Playwright extractor is an
  oracle `String → Option ExtRecord`);
* the retrying `process_ec` of both scripts, with per-attempt outcomes given
  by an oracle `Nat → Option ExtRecord`;
* the checkpoint `save` as a sequence of on-disk states (truncate on open,
  then sequential character writes), to reason about crash points.
-/

/-! ## Character helpers -/

/-- The space character (written via its code point to keep character
literals simple). -/
def spaceChar : Char := Char.ofNat 32

/-- Python `\s` / `str.strip` whitespace (ASCII range, as used by the data). -/
def isWs (c : Char) : Bool :=
  c == spaceChar || c == '\t' || c == '\n' || c == '\r' || c == '\x0b' || c == '\x0c'

/-- The separator punctuation removed by `re.sub(r"[.,;:]+", "", n)`. -/
def isPunctSep (c : Char) : Bool :=
  c == '.' || c == ',' || c == ';' || c == ':'

/-- `str.lower()` (ASCII; the embedded inputs are ASCII). -/
def lowerStr (l : List Char) : List Char :=
  l.map Char.toLower

/-- `str.strip()`: drop whitespace at both ends. -/
def trimChars (l : List Char) : List Char :=
  ((l.dropWhile isWs).reverse.dropWhile isWs).reverse

/-! ## Embedded regular-expression matcher

A matcher step maps an input remainder to the list of possible remainders
after consuming a match; the empty list means no match.  This models the
backtracking search of Python `re` closely enough to decide match existence,
which is all `re.search` / the anchored `re.sub` below observe. -/

/-- Consume one literal character. -/
def matchCh (c : Char) : List Char → List (List Char)
  | [] => []
  | x :: rest => if x == c then [rest] else []

/-- `\.?` — optionally consume one dot. -/
def matchOptDot : List Char → List (List Char)
  | [] => [[]]
  | c :: rest => if c == '.' then [rest, c :: rest] else [c :: rest]

/-- `\s*` — all remainders obtained by consuming a (possibly empty) prefix of
whitespace. -/
def wsStarRems : List Char → List (List Char)
  | [] => [[]]
  | c :: rest => (c :: rest) :: (if isWs c then wsStarRems rest else [])

/-- Remainders of `s\.?a\.?\s*de\s*c\.?v\.?` matched at the head. -/
def alt1Rems (l : List Char) : List (List Char) :=
  (((((((((((matchCh 's' l).flatMap matchOptDot).flatMap
    (matchCh 'a')).flatMap matchOptDot).flatMap
    wsStarRems).flatMap (matchCh 'd')).flatMap (matchCh 'e')).flatMap
    wsStarRems).flatMap (matchCh 'c')).flatMap matchOptDot).flatMap
    (matchCh 'v')).flatMap matchOptDot

/-- Remainders of `s\.?c\.?` matched at the head. -/
def alt2Rems (l : List Char) : List (List Char) :=
  (((matchCh 's' l).flatMap matchOptDot).flatMap (matchCh 'c')).flatMap matchOptDot

/-- Remainders of `a\.?c\.?` matched at the head. -/
def alt3Rems (l : List Char) : List (List Char) :=
  (((matchCh 'a' l).flatMap matchOptDot).flatMap (matchCh 'c')).flatMap matchOptDot

/-- Remainders of the alternation
`(s\.?a\.?\s*de\s*c\.?v\.?|s\.?c\.?|a\.?c\.?)` matched at the head. -/
def altAnyRems (l : List Char) : List (List Char) :=
  alt1Rems l ++ alt2Rems l ++ alt3Rems l

/-- Does `\s*(s\.?a\.?\s*de\s*c\.?v\.?|s\.?c\.?|a\.?c\.?)\s*$` match the whole
of `l` (i.e. the suffix pattern matches starting at this position)? -/
def suffixMatchEnd (l : List Char) : Bool :=
  ((wsStarRems l).flatMap altAnyRems).any (fun r => r.all isWs)

/-- `re.sub(r"\s*(s\.?a\.?\s*de\s*c\.?v\.?|s\.?c\.?|a\.?c\.?)\s*$", "", n)`:
scan left to right; at the first position where the end-anchored pattern
matches the whole tail, delete the tail. -/
def stripLegalSuffix : List Char → List Char
  | [] => []
  | c :: rest => if suffixMatchEnd (c :: rest) then [] else c :: stripLegalSuffix rest

/-- `re.search(pat, l)`: does the pattern match at any position? -/
def searchAny (pat : List Char → List (List Char)) : List Char → Bool
  | [] => !(pat []).isEmpty
  | c :: rest => !(pat (c :: rest)).isEmpty || searchAny pat rest

/-- `re.sub(r"\s+", " ", n)`: replace each maximal whitespace run by one
space. -/
def collapseWs : List Char → List Char
  | [] => []
  | [c] => if isWs c then [spaceChar] else [c]
  | c1 :: c2 :: rest =>
    if isWs c1 && isWs c2 then collapseWs (c2 :: rest)
    else (if isWs c1 then spaceChar else c1) :: collapseWs (c2 :: rest)

/-- `re.sub(r"[.,;:]+", "", n)`: delete all separator punctuation. -/
def removePunct (l : List Char) : List Char :=
  l.filter (fun c => !isPunctSep c)

/-! ## `normalize_name` and `extract_entity_info` -/

/-- `normalize_name` from `build_master_registries.py`:
lowercase and strip, remove the trailing legal-suffix pattern, collapse
whitespace runs, delete separator punctuation, strip again. -/
def normalize_name (name : String) : String :=
  if name.data = [] then ""
  else
    String.mk
      (trimChars (removePunct (collapseWs
        (stripLegalSuffix (trimChars (lowerStr name.data))))))

/-- Result record of `extract_entity_info`. -/
structure EntityInfo where
  original_name : String
  normalized : String
  entity_type : String
deriving DecidableEq, Repr

/-- `extract_entity_info` from `build_master_registries.py`: an unanchored,
case-insensitive `re.search` of each legal-form pattern against the raw
name, in fixed priority order.  Case-insensitivity is modelled by lowering
the subject (the patterns themselves are lowercase literals). -/
def extract_entity_info (name : String) : EntityInfo :=
  let l := lowerStr name.data
  let et :=
    if searchAny alt1Rems l then "SA de CV"
    else if searchAny alt2Rems l then "SC"
    else if searchAny alt3Rems l then "AC"
    else "Unknown"
  ⟨name, normalize_name name, et⟩

/-! ## Registry builder (`build_master_registries.py`)

Python dicts — including `defaultdict` — iterate in key-insertion order and
are modelled as association lists where a fresh key is appended; Python
sets of strings are modelled as insertion-ordered duplicate-free lists
(the only set observations the source makes are membership, size, and
`sorted(...)`, all order-insensitive).  `max(names, key=len)` breaks ties
by iteration order, modelled as first-encountered. -/

/-- Input payload of one EC record, as consumed by the registry builder
(`data.get("certifiers", [])`, `data.get("courses", [])`,
`data.get("title", "")`). -/
structure ECData where
  title : String
  certifiers : List String
  courses : List String
deriving DecidableEq, Repr

/-- Accumulated group for one normalized key (the `defaultdict` payload).
`entity_type` is `none` for a freshly created group (Python `None`); the
CCAP builder never sets it. -/
structure NameGroup where
  names : List String
  ec_codes : List String
  courses : List String
  entity_type : Option String
deriving DecidableEq, Repr

/-- The empty group created by the `defaultdict` on first access. -/
def emptyGroup : NameGroup := ⟨[], [], [], none⟩

/-- Python `set.add`: append if not already present. -/
def insertName (x : String) (l : List String) : List String :=
  if l.contains x then l else l ++ [x]

/-- Association-list lookup (Python `d[k]` / `d.get(k)`). -/
def lookupAL {β : Type} (m : List (String × β)) (k : String) : Option β :=
  match m with
  | [] => none
  | (k2, v) :: rest => if k2 == k then some v else lookupAL rest k

/-- Association-list store (Python `d[k] = v`): overwrite in place if the key
exists, else append — preserving dict insertion order. -/
def storeAL {β : Type} (m : List (String × β)) (k : String) (v : β) :
    List (String × β) :=
  match m with
  | [] => [(k, v)]
  | (k2, v2) :: rest =>
    if k2 == k then (k, v) :: rest else (k2, v2) :: storeAL rest k v

/-- One certifier name folded into the ECE group map (the inner loop body of
`build_ece_registry`): skip names shorter than 3 characters, skip names with
an empty normalized key, otherwise add the raw name and the EC code to the
group of that key and update its entity type (only while unset or `"Unknown"`). -/
def addCertName (m : List (String × NameGroup)) (ec_code cert : String) :
    List (String × NameGroup) :=
  if cert.length < 3 then m
  else
    let norm := normalize_name cert
    if norm = "" then m
    else
      let g := (lookupAL m norm).getD emptyGroup
      let g := { g with
        names := insertName cert g.names,
        ec_codes := insertName ec_code g.ec_codes }
      let g := { g with
        entity_type :=
          match g.entity_type with
          | none => some (extract_entity_info cert).entity_type
          | some t =>
            if t = "Unknown" then some (extract_entity_info cert).entity_type
            else some t }
      storeAL m norm g

/-- One course name folded into the CCAP group map (the inner loop body of
`build_ccap_registry`): floor of 5 characters, no entity-type handling. -/
def addCourseName (m : List (String × NameGroup)) (ec_code course : String) :
    List (String × NameGroup) :=
  if course.length < 5 then m
  else
    let norm := normalize_name course
    if norm = "" then m
    else
      let g := (lookupAL m norm).getD emptyGroup
      let g := { g with
        names := insertName course g.names,
        ec_codes := insertName ec_code g.ec_codes,
        courses := insertName course g.courses }
      storeAL m norm g

/-- A registry entry.  For CCAP entries `entity_type` is `none`, modelling
the absent `"entity_type"` key of the Python record. -/
structure RegEntry where
  id : String
  canonical_name : String
  alternate_names : List String
  normalized_key : String
  entity_type : Option String
  ec_codes : List String
  ec_count : Nat
deriving DecidableEq, Repr

/-- Placeholder entry (used only as the `List.getD` default in statements). -/
def defaultEntry : RegEntry := ⟨"", "", [], "", none, [], 0⟩

/-- Code-point comparison of strings, as Python compares `str` values. -/
def charListLE : List Char → List Char → Bool
  | [], _ => true
  | _ :: _, [] => false
  | a :: as, b :: bs =>
    if a.toNat < b.toNat then true
    else if b.toNat < a.toNat then false
    else charListLE as bs

/-- `a` sorts no later than `b` under Python string comparison. -/
def strLE (a b : String) : Bool := charListLE a.data b.data

/-- Stable insertion, placing `x` before the first element it does not
strictly follow. -/
def insertSorted {α : Type} (le : α → α → Bool) (x : α) : List α → List α
  | [] => [x]
  | y :: ys => if le x y then x :: y :: ys else y :: insertSorted le x ys

/-- Stable sort (same result as Python `list.sort` / `sorted` for a total
preorder, by stability). -/
def stableSort {α : Type} (le : α → α → Bool) : List α → List α
  | [] => []
  | x :: xs => insertSorted le x (stableSort le xs)

/-- `sorted(...)` on a list of strings. -/
def sortStr (l : List String) : List String := stableSort strLE l

/-- The sort key `(-ec_count, canonical_name)` of
`registry.sort(key=lambda x: (-x["ec_count"], x["canonical_name"]))`,
as a boolean total preorder. -/
def regLE (a b : RegEntry) : Bool :=
  decide (b.ec_count < a.ec_count) ||
    (a.ec_count == b.ec_count && strLE a.canonical_name b.canonical_name)

/-- Python `f"{pfx}{n:05d}"`. -/
def mkId (pfx : String) (n : Nat) : String :=
  let ds := Nat.toDigits 10 n
  pfx ++ String.mk (List.replicate (5 - ds.length) '0' ++ ds)

/-- `max(names, key=len)` — first name of maximal length. -/
def maxByLen : List String → String
  | [] => ""
  | [n] => n
  | n :: rest =>
    let m := maxByLen rest
    if m.length > n.length then m else n

/-- One group turned into a registry entry, with the provisional id
`f"{pfx}-{len(registry)+1:05d}"` assigned at position `idx`. -/
def groupToEntry (pfx : String) (idx : Nat) (k : String) (g : NameGroup) : RegEntry :=
  let canonical := maxByLen g.names
  { id := mkId pfx (idx + 1)
    canonical_name := canonical
    alternate_names := sortStr (g.names.filter (fun n => n ≠ canonical))
    normalized_key := k
    entity_type := g.entity_type
    ec_codes := sortStr g.ec_codes
    ec_count := g.ec_codes.length }

/-- The unsorted registry list built from the group map in insertion order. -/
def rawEntries (pfx : String) (i : Nat) : List (String × NameGroup) → List RegEntry
  | [] => []
  | (k, g) :: rest => groupToEntry pfx i k g :: rawEntries pfx (i + 1) rest

/-- `for i, e in enumerate(registry): e["id"] = f"{pfx}{i+1:05d}"`. -/
def assignIdsFrom (pfx : String) (i : Nat) : List RegEntry → List RegEntry
  | [] => []
  | e :: rest => { e with id := mkId pfx (i + 1) } :: assignIdsFrom pfx (i + 1) rest

/-- `build_ece_registry`: group certifier names by normalized key, convert
groups to entries, sort by `(-ec_count, canonical_name)`, reassign ids. -/
def build_ece_registry (ec_data : List (String × ECData)) : List RegEntry :=
  let m := ec_data.foldl
    (fun m p => p.2.certifiers.foldl (fun m c => addCertName m p.1 c) m) []
  assignIdsFrom "ECE-" 0 (stableSort regLE (rawEntries "ECE-" 0 m))

/-- `build_ccap_registry`: the same over course names with a floor of 5. -/
def build_ccap_registry (ec_data : List (String × ECData)) : List RegEntry :=
  let m := ec_data.foldl
    (fun m p => p.2.courses.foldl (fun m c => addCourseName m p.1 c) m) []
  assignIdsFrom "CCAP-" 0 (stableSort regLE (rawEntries "CCAP-" 0 m))

/-- One matrix row: `{"ece_ids": sorted(set(ece_ids)), "ece_count":
len(set(ece_ids)), "title": data.get("title", "")}`. -/
structure MatrixEntry where
  ece_ids : List String
  ece_count : Nat
  title : String
deriving DecidableEq, Repr

/-- Insertion-ordered deduplication (Python `set(...)` observed only through
`sorted` and `len`). -/
def dedupStr (l : List String) : List String :=
  l.foldl (fun acc x => insertName x acc) []

/-- `build_ec_ece_matrix`: map the raw certifier names of each EC through the
normalized-key index of the registry; names whose key is absent are
silently dropped.  Note: no length floor is applied here. -/
def build_ec_ece_matrix (ec_data : List (String × ECData))
    (ece_registry : List RegEntry) : List (String × MatrixEntry) :=
  let norm_to_id := ece_registry.foldl
    (fun m e => storeAL m e.normalized_key e.id) []
  ec_data.map (fun p =>
    let ece_ids := p.2.certifiers.filterMap
      (fun cert => lookupAL norm_to_id (normalize_name cert))
    (p.1, ⟨sortStr (dedupStr ece_ids), (dedupStr ece_ids).length, p.2.title⟩))

/-! ## Extraction coordinator (`extract_certifiers_batch.py` and
`extract_ec_details_playwright.py`)

The browser-driving extractor is abstracted as an oracle from a work item
to `Option ExtRecord` (`None` models an exhausted-retries failure of
`process_ec`).  The main loop is embedded as a fold over the remaining
items that threads the checkpoint and records the dispatch trace. -/

/-- The record produced by the in-page extraction script. -/
structure ExtRecord where
  title : String
  certifiers : List String
  courses : List String
  occupations : List String
  committee_members : List String
deriving DecidableEq, Repr

/-- The checkpoint document: `{"processed": [...], "failed": [...],
"data": {...}}` (the timestamp carries no information used by the logic). -/
structure Checkpoint where
  processed : List String
  failed : List String
  data : List (String × ExtRecord)
deriving DecidableEq, Repr

/-- `load_checkpoint` when no checkpoint file exists. -/
def emptyCheckpoint : Checkpoint := ⟨[], [], []⟩

/-- One loop iteration of `extract_certifiers_batch.py` `main`: a result is
recorded as a success only when `data and (data.get("certifiers") or
data.get("title"))` — some record with a non-empty certifier list or a
non-empty title; otherwise the item is appended to `failed`. -/
def stepBatch (cp : Checkpoint) (ec_code : String) (res : Option ExtRecord) :
    Checkpoint :=
  match res with
  | some d =>
    if d.certifiers ≠ [] ∨ d.title ≠ "" then
      { cp with
        data := storeAL cp.data ec_code d,
        processed := cp.processed ++ [ec_code] }
    else { cp with failed := cp.failed ++ [ec_code] }
  | none => { cp with failed := cp.failed ++ [ec_code] }

/-- One loop iteration of `extract_ec_details_playwright.py` `main`: any
returned record (`if data:`) is recorded as a success, with no check that
the extraction carries information. -/
def stepPW (cp : Checkpoint) (ec_code : String) (res : Option ExtRecord) :
    Checkpoint :=
  match res with
  | some d =>
    { cp with
      data := storeAL cp.data ec_code d,
      processed := cp.processed ++ [ec_code] }
  | none => { cp with failed := cp.failed ++ [ec_code] }

/-- The loop body over the remaining items, returning the final checkpoint
and the trace of items dispatched to the extractor, in order. -/
def runFrom (step : Checkpoint → String → Option ExtRecord → Checkpoint)
    (extract : String → Option ExtRecord) (cp : Checkpoint) :
    List String → Checkpoint × List String
  | [] => (cp, [])
  | code :: rest =>
    let out := runFrom step extract (step cp code (extract code)) rest
    (out.1, code :: out.2)

/-- `main` of the batch certifiers extractor: compute
`remaining = [c for c in ec_codes if c not in processed]` and iterate. -/
def mainBatch (extract : String → Option ExtRecord) (ec_codes : List String)
    (cp : Checkpoint) : Checkpoint × List String :=
  runFrom stepBatch extract cp
    (ec_codes.filter (fun c => !cp.processed.contains c))

/-- `main` of the Playwright details extractor: same remaining-set logic,
different success criterion. -/
def mainPW (extract : String → Option ExtRecord) (ec_codes : List String)
    (cp : Checkpoint) : Checkpoint × List String :=
  runFrom stepPW extract cp
    (ec_codes.filter (fun c => !cp.processed.contains c))

/-- The consolidated final export written by `save_final`. -/
structure FinalOutput where
  ecs_processed : Nat
  ecs_failed : Nat
  total_certifier_relationships : Nat
  total_course_relationships : Nat
  unique_certifiers : Nat
  failed_ecs : List String
  ec_details : List (String × ExtRecord)
deriving DecidableEq, Repr

/-- `save_final` of `extract_certifiers_batch.py`: summary counts plus the
failed list and data, all taken from the checkpoint as-is. -/
def save_final (cp : Checkpoint) : FinalOutput :=
  { ecs_processed := cp.data.length
    ecs_failed := cp.failed.length
    total_certifier_relationships :=
      (cp.data.map (fun p => p.2.certifiers.length)).sum
    total_course_relationships :=
      (cp.data.map (fun p => p.2.courses.length)).sum
    unique_certifiers :=
      (cp.data.foldl (fun acc p => p.2.certifiers.foldl
        (fun acc c => insertName c acc) acc) []).length
    failed_ecs := cp.failed
    ec_details := cp.data }

/-! ## Retry logic of `process_ec`

Per-attempt outcomes are an oracle `attempt : Nat → Option ExtRecord`;
`attempt k = none` means the k-th attempt raises / fails to navigate. -/

/-- `process_ec` of `extract_certifiers_batch.py`: on failure retry while
`retry < 2`, so at most attempts 0, 1 and 2 run. -/
def processECBatch (attempt : Nat → Option ExtRecord) (retry : Nat) :
    Option ExtRecord :=
  match attempt retry with
  | some d => some d
  | none =>
    if h : retry < 2 then processECBatch attempt (retry + 1) else none
termination_by 2 - retry

/-- `MAX_RETRIES` of `extract_ec_details_playwright.py`. -/
def MAX_RETRIES : Nat := 3

/-- `process_ec` of `extract_ec_details_playwright.py`: retry while
`retry < MAX_RETRIES`, so attempts 0, 1, 2 and 3 run — four in total. -/
def processECPW (attempt : Nat → Option ExtRecord) (retry : Nat) :
    Option ExtRecord :=
  match attempt retry with
  | some d => some d
  | none =>
    if h : retry < MAX_RETRIES then processECPW attempt (retry + 1) else none
termination_by MAX_RETRIES - retry

/-! ## Checkpoint persistence (`save_checkpoint`)

Both scripts write with `open(CHECKPOINT_FILE, "w")` followed by
`json.dump`: the file is truncated at open and the new document is then
written sequentially.  `saveStates old new` lists the on-disk contents
observable if the process crashes at any point during the save: the prior
content (crash before open), then the truncated file growing one character
at a time, ending in the complete new document. -/

/-- Disk states while writing `toWrite` after content `cur` is on disk. -/
def writeCharsStates (cur : String) : List Char → List String
  | [] => [cur]
  | c :: rest => cur :: writeCharsStates (cur.push c) rest

/-- All crash-point disk states of `save_checkpoint`. -/
def saveStates (old new : String) : List String :=
  old :: writeCharsStates "" new.data


/-! ## Spec-side characterization of the classifier (for the unanchored
search claim), written as direct scanning functions over the text. -/

/-- Skip one period if present. -/
def eatDot : List Char → List Char
  | [] => []
  | c :: rest => if c == '.' then rest else c :: rest

/-- Skip a whitespace run. -/
def wsSkip (l : List Char) : List Char := l.dropWhile isWs

/-- The letters `s` and `c` stand adjacent at the head, with `s` optionally
followed by a period (a trailing period after `c` never affects
containment). -/
def scAt : List Char → Bool
  | [] => false
  | c1 :: r =>
    c1 == 's' &&
      (match eatDot r with
       | c2 :: _ => c2 == 'c'
       | [] => false)

/-- The letters `a` and `c` stand adjacent at the head, with `a` optionally
followed by a period. -/
def acAt : List Char → Bool
  | [] => false
  | c1 :: r =>
    c1 == 'a' &&
      (match eatDot r with
       | c2 :: _ => c2 == 'c'
       | [] => false)

/-- The SA-de-CV pattern (`s`, `a`, `de`, `c`, `v`, with optional periods
and whitespace as in the source pattern) starts at the head. -/
def saDeCvAt : List Char → Bool
  | [] => false
  | c1 :: r1 =>
    c1 == 's' &&
      (match eatDot r1 with
       | [] => false
       | c2 :: r2 =>
         c2 == 'a' &&
           (match wsSkip (eatDot r2) with
            | [] => false
            | c3 :: r3 =>
              c3 == 'd' &&
                (match r3 with
                 | [] => false
                 | c4 :: r4 =>
                   c4 == 'e' &&
                     (match wsSkip r4 with
                      | [] => false
                      | c5 :: r5 =>
                        c5 == 'c' &&
                          (match eatDot r5 with
                           | c6 :: _ => c6 == 'v'
                           | [] => false)))))

/-- `sc` (with an optional period between) occurs anywhere in the text. -/
def hasSC : List Char → Bool
  | [] => false
  | c :: rest => scAt (c :: rest) || hasSC rest

/-- `ac` (with an optional period between) occurs anywhere in the text. -/
def hasAC : List Char → Bool
  | [] => false
  | c :: rest => acAt (c :: rest) || hasAC rest

/-- The SA-de-CV pattern occurs anywhere in the text. -/
def hasSAdeCV : List Char → Bool
  | [] => false
  | c :: rest => saDeCvAt (c :: rest) || hasSAdeCV rest

/-- The classification as the claim words it: an unanchored containment
check over the whole (lowered) name, in the fixed priority order. -/
def classifySpec (name : String) : String :=
  let l := lowerStr name.data
  if hasSAdeCV l then "SA de CV"
  else if hasSC l then "SC"
  else if hasAC l then "AC"
  else "Unknown"

/-- No two adjacent whitespace characters (the executable side condition of
the idempotence statement for `normalize`). -/
def noAdjWs : List Char → Bool
  | c1 :: c2 :: rest => !(isWs c1 && isWs c2) && noAdjWs (c2 :: rest)
  | _ => true


/-- The end-to-end scenario input of the specification. -/
def scenarioData : List (String × ECData) :=
  [("EC001", ⟨"", ["Instituto ABC S.A. de C.V.", "INSTITUTO ABC"], []⟩),
   ("EC002", ⟨"", ["Instituto ABC S.A. de C.V."], []⟩)]

/-- The registry entry the scenario must produce. -/
def scenarioEntry : RegEntry :=
  { id := "ECE-00001"
    canonical_name := "Instituto ABC S.A. de C.V."
    alternate_names := ["INSTITUTO ABC"]
    normalized_key := "instituto abc"
    entity_type := some "SA de CV"
    ec_codes := ["EC001", "EC002"]
    ec_count := 2 }

/-- Input exhibiting the missing length floor in the matrix pass: `"ab."`
(length 3) enters the registry with normalized key `"ab"`, and the length-2
raw name `"ab"` of EC002 then resolves to that key in the matrix. -/
def floorData : List (String × ECData) :=
  [("EC001", ⟨"", ["ab."], []⟩), ("EC002", ⟨"", ["ab"], []⟩)]


/-- Invariant carried by the group maps: every group is non-empty, and every
raw name in a group meets the floor and normalizes to the key of the group. -/
def GroupInv (floor : Nat) (m : List (String × NameGroup)) : Prop :=
  ∀ p ∈ m, p.2.names ≠ [] ∧
    ∀ n ∈ p.2.names, floor ≤ n.length ∧ normalize_name n = p.1

/-- A checkpoint recording one prior failure and no successes. -/
def failedOnlyCp : Checkpoint := ⟨[], ["EC001"], []⟩

/-- An informative extraction record. -/
def goodRec : ExtRecord := ⟨"Titulo de prueba", ["Cert Uno"], [], [], []⟩

/-- An extraction record with every field blank. -/
def blankRec : ExtRecord := ⟨"", [], [], [], []⟩

/-- Per-attempt oracle that fails on attempts 0 to 2 and succeeds on 3. -/
def lateSuccess : Nat → Option ExtRecord :=
  fun i => if i == 3 then some goodRec else none

/-- C1 counterexample: with the checkpoint of the first run holding `"EC001"` in
the failed set (and not in processed) and the failed set not reset, a second
run dispatches the Extractor for `"EC001"` anyway — the dispatch trace is
`["EC001"]`, refuting that previously failed items are re-attempted only if
the caller explicitly resets the failed set. -/
theorem claim1_counterexample :
    failedOnlyCp.failed = ["EC001"] ∧ failedOnlyCp.processed = [] ∧
      (mainBatch (fun _ => none) ["EC001"] failedOnlyCp).2 = ["EC001"] := by
  decide

/-- C2 counterexample: starting from a checkpoint with `"EC001"` in the
failed set, a later successful extraction of `"EC001"` adds it to
`processed` and `data`, but the item is still reported in the persisted
failed set and in the `failed_ecs` list of the final export — no reconciliation with
success precedence happens. -/
theorem claim2_counterexample :
    "EC001" ∈ (mainBatch (fun _ => some goodRec) ["EC001"] failedOnlyCp).1.processed ∧
      (lookupAL (mainBatch (fun _ => some goodRec) ["EC001"] failedOnlyCp).1.data
        "EC001") = some goodRec ∧
      "EC001" ∈
        (save_final (mainBatch (fun _ => some goodRec) ["EC001"] failedOnlyCp).1).failed_ecs := by
  decide

/-- C3: `save_checkpoint` writes with `open(path, "w")` + `json.dump`, i.e.
truncate in place then write sequentially.  At the failing input — prior
checkpoint `"A"`, new serialized checkpoint `"BC"`, crash after one written
character — the disk holds `"B"`, which is neither the complete prior nor
the complete new document (and the empty truncated state is reachable too),
so the save is not crash-atomic. -/
theorem claim3_truncated_state :
    saveStates "A" "BC" = ["A", "", "B", "BC"] ∧
      ("B" : String) ≠ "A" ∧ ("B" : String) ≠ "BC" ∧
      ("" : String) ≠ "A" ∧ ("" : String) ≠ "BC" := by
  decide

/-- C4 counterexample: in the Playwright details coordinator, a completed
fetch whose record has a blank title and no certifiers (all fields blank)
is still recorded as a success — `"EC001"` lands in `processed`, not in
`failed`, refuting that an all-blank extraction is recorded as a Failure. -/
theorem claim4_counterexample :
    blankRec.title = "" ∧ blankRec.certifiers = [] ∧
      (mainPW (fun _ => some blankRec) ["EC001"] emptyCheckpoint).1.processed =
        ["EC001"] ∧
      (mainPW (fun _ => some blankRec) ["EC001"] emptyCheckpoint).1.failed = [] := by
  decide

/-- C5 (confirmed): the end-to-end scenario.  For the two-item input with
certifier names `"Instituto ABC S.A. de C.V."`, `"INSTITUTO ABC"` on EC001
and `"Instituto ABC S.A. de C.V."` on EC002, the builder produces exactly
one registry entry with the canonical name, alternate names
`{"INSTITUTO ABC"}`, entity type `"SA de CV"`, `ec_count` 2 and `ec_codes`
`["EC001", "EC002"]`, and the matrix maps both work items to the id of that entry. -/
theorem claim5_end_to_end :
    build_ece_registry scenarioData = [scenarioEntry] ∧
      build_ec_ece_matrix scenarioData (build_ece_registry scenarioData) =
        [("EC001", ⟨["ECE-00001"], 1, ""⟩), ("EC002", ⟨["ECE-00001"], 1, ""⟩)] := by
  decide

/-- C6 counterexample: the matrix pass applies no length floor.  The only certifier name of EC002 is `"ab"` of length 2, yet its matrix entry receives
the related-entity id `"ECE-00001"` (whose key `"ab"` entered the registry
through the length-3 name `"ab."`), refuting that a certifier name of
length below 3 never contributes a related-entity id to a matrix entry. -/
theorem claim6_counterexample :
    lookupAL floorData "EC002" = some (⟨"", ["ab"], []⟩ : ECData) ∧
      ("ab" : String).length = 2 ∧
      lookupAL (build_ec_ece_matrix floorData (build_ece_registry floorData))
        "EC002" = some (⟨["ECE-00001"], 1, ""⟩ : MatrixEntry) :=
  ⟨rfl, rfl, rfl⟩

/-- C8 counterexample: `normalize` is not a fixed point after one
application.  For `"a . b"`, removing the dot after whitespace collapse
leaves a double space, which only a second application collapses:
`normalize("a . b") = "a  b"` but `normalize("a  b") = "a b"`. -/
theorem claim8_counterexample :
    normalize_name (normalize_name "a . b") ≠ normalize_name "a . b" := by
  decide

/-- C9 counterexample: the retry ceiling is not 2 retries (3 attempts) for
every extractor.  Under an oracle failing on attempts 0, 1 and 2 and
succeeding on attempt 3, the Playwright `process_ec` (`MAX_RETRIES = 3`)
returns that success — a fourth attempt runs — while the batch extractor
(ceiling 2) returns a Failure. -/
theorem claim9_counterexample :
    lateSuccess 0 = none ∧ lateSuccess 1 = none ∧ lateSuccess 2 = none ∧
      processECPW lateSuccess 0 = some goodRec ∧
      processECBatch lateSuccess 0 = none := by
  refine ⟨rfl, rfl, rfl, ?_, ?_⟩ <;>
    simp [processECPW, processECBatch, lateSuccess, MAX_RETRIES]

/-! ## Helper lemmas: preservation, sorting, id assignment -/

theorem foldl_preserve {α β : Type} (P : β → Prop) (f : β → α → β)
    (h : ∀ b a, P b → P (f b a)) :
    ∀ (l : List α) (b : β), P b → P (l.foldl f b)
  | [], _, hb => hb
  | a :: l, b, hb => foldl_preserve P f h l (f b a) (h b a hb)

theorem mem_insertSorted {α : Type} (le : α → α → Bool) (x : α) :
    ∀ (l : List α) (y : α), y ∈ insertSorted le x l ↔ y = x ∨ y ∈ l := by
  intro l
  induction l with
  | nil => intro y; simp [insertSorted]
  | cons z zs ih =>
    intro y
    by_cases h : le x z = true
    · simp only [insertSorted, if_pos h, List.mem_cons]
    · simp only [insertSorted, if_neg h, List.mem_cons, ih]
      tauto

theorem mem_stableSort {α : Type} (le : α → α → Bool) :
    ∀ (l : List α) (y : α), y ∈ stableSort le l ↔ y ∈ l := by
  intro l
  induction l with
  | nil => intro y; simp [stableSort]
  | cons x xs ih =>
    intro y
    simp only [stableSort, mem_insertSorted, ih, List.mem_cons]

theorem pairwise_insertSorted {α : Type} (le : α → α → Bool)
    (htot : ∀ a b, le a b = true ∨ le b a = true)
    (htrans : ∀ a b c, le a b = true → le b c = true → le a c = true)
    (x : α) :
    ∀ (l : List α), l.Pairwise (fun a b => le a b = true) →
      (insertSorted le x l).Pairwise (fun a b => le a b = true) := by
  intro l
  induction l with
  | nil => intro _; simp [insertSorted]
  | cons z zs ih =>
    intro hp
    rw [List.pairwise_cons] at hp
    obtain ⟨hz, hzs⟩ := hp
    by_cases h : le x z = true
    · simp only [insertSorted, if_pos h]
      refine List.Pairwise.cons ?_ (List.Pairwise.cons hz hzs)
      intro y hy
      rcases List.mem_cons.mp hy with rfl | hy2
      · exact h
      · exact htrans x z y h (hz y hy2)
    · simp only [insertSorted, if_neg h]
      refine List.Pairwise.cons ?_ (ih hzs)
      intro y hy
      rcases (mem_insertSorted le x zs y).mp hy with rfl | hy2
      · rcases htot y z with hxz | hzx
        · exact absurd hxz h
        · exact hzx
      · exact hz y hy2

theorem pairwise_stableSort {α : Type} (le : α → α → Bool)
    (htot : ∀ a b, le a b = true ∨ le b a = true)
    (htrans : ∀ a b c, le a b = true → le b c = true → le a c = true) :
    ∀ (l : List α), (stableSort le l).Pairwise (fun a b => le a b = true) := by
  intro l
  induction l with
  | nil => simp [stableSort]
  | cons x xs ih =>
    simpa [stableSort] using pairwise_insertSorted le htot htrans x _ ih

theorem charListLE_total : ∀ (a b : List Char),
    charListLE a b = true ∨ charListLE b a = true := by
  intro a
  induction a with
  | nil => intro b; left; simp [charListLE]
  | cons x xs ih =>
    intro b
    cases b with
    | nil => right; simp [charListLE]
    | cons y ys =>
      simp only [charListLE]
      rcases Nat.lt_trichotomy x.toNat y.toNat with h | h | h
      · left
        simp [h]
      · have h2 : ¬x.toNat < y.toNat := by omega
        have h3 : ¬y.toNat < x.toNat := by omega
        simpa [h2, h3] using ih ys
      · right
        simp [h]

theorem charListLE_trans : ∀ (a b c : List Char),
    charListLE a b = true → charListLE b c = true → charListLE a c = true := by
  intro a
  induction a with
  | nil => intro b c _ _; simp [charListLE]
  | cons x xs ih =>
    intro b c hab hbc
    cases b with
    | nil => simp [charListLE] at hab
    | cons y ys =>
      cases c with
      | nil => simp [charListLE] at hbc
      | cons z zs =>
        simp only [charListLE] at hab hbc ⊢
        split_ifs at hab hbc ⊢ <;>
          first
            | rfl
            | omega
            | exact ih ys zs hab hbc

theorem strLE_total (a b : String) : strLE a b = true ∨ strLE b a = true :=
  charListLE_total a.data b.data

theorem strLE_trans (a b c : String) :
    strLE a b = true → strLE b c = true → strLE a c = true :=
  charListLE_trans a.data b.data c.data

theorem regLE_total : ∀ (a b : RegEntry), regLE a b = true ∨ regLE b a = true := by
  intro a b
  simp only [regLE, Bool.or_eq_true, Bool.and_eq_true, decide_eq_true_eq,
    beq_iff_eq]
  rcases Nat.lt_trichotomy a.ec_count b.ec_count with h | h | h
  · right
    left
    exact h
  · rcases strLE_total a.canonical_name b.canonical_name with hs | hs
    · left
      right
      exact ⟨h, hs⟩
    · right
      right
      exact ⟨h.symm, hs⟩
  · left
    left
    exact h

theorem regLE_trans : ∀ (a b c : RegEntry),
    regLE a b = true → regLE b c = true → regLE a c = true := by
  intro a b c hab hbc
  simp only [regLE, Bool.or_eq_true, Bool.and_eq_true, decide_eq_true_eq,
    beq_iff_eq] at hab hbc ⊢
  rcases hab with h1 | ⟨h1, hs1⟩
  · rcases hbc with h2 | ⟨h2, _⟩
    · left; omega
    · left; omega
  · rcases hbc with h2 | ⟨h2, hs2⟩
    · left; omega
    · right
      exact ⟨by omega, strLE_trans _ _ _ hs1 hs2⟩

theorem length_assignIdsFrom (pfx : String) :
    ∀ (l : List RegEntry) (k : Nat), (assignIdsFrom pfx k l).length = l.length := by
  intro l
  induction l with
  | nil => intro k; rfl
  | cons e rest ih => intro k; simp [assignIdsFrom, ih]

theorem mem_assignIdsFrom (pfx : String) :
    ∀ (l : List RegEntry) (k : Nat) (x : RegEntry), x ∈ assignIdsFrom pfx k l →
      ∃ y ∈ l, ∃ n, x = { y with id := mkId pfx n } := by
  intro l
  induction l with
  | nil => intro k x h; simp [assignIdsFrom] at h
  | cons e rest ih =>
    intro k x h
    simp only [assignIdsFrom, List.mem_cons] at h
    rcases h with rfl | h2
    · exact ⟨e, List.mem_cons_self e rest, k + 1, rfl⟩
    · obtain ⟨y, hy, n, rfl⟩ := ih (k + 1) x h2
      exact ⟨y, List.mem_cons_of_mem _ hy, n, rfl⟩

theorem assignIdsFrom_getD (pfx : String) :
    ∀ (l : List RegEntry) (k i : Nat), i < l.length →
      ((assignIdsFrom pfx k l).getD i defaultEntry).id = mkId pfx (k + i + 1) := by
  intro l
  induction l with
  | nil => intro k i h; simp at h
  | cons e rest ih =>
    intro k i h
    cases i with
    | zero => simp [assignIdsFrom, List.getD]
    | succ j =>
      have hj : j < rest.length := by simpa using Nat.lt_of_succ_lt_succ h
      simp only [assignIdsFrom, List.getD_cons_succ]
      rw [ih (k + 1) j hj]
      congr 1
      omega

theorem pairwise_assignIdsFrom (pfx : String) :
    ∀ (l : List RegEntry) (k : Nat),
      l.Pairwise (fun a b => regLE a b = true) →
      (assignIdsFrom pfx k l).Pairwise (fun a b => regLE a b = true) := by
  intro l
  induction l with
  | nil => intro k _; simp [assignIdsFrom]
  | cons e rest ih =>
    intro k hp
    rw [List.pairwise_cons] at hp
    simp only [assignIdsFrom]
    refine List.Pairwise.cons ?_ (ih (k + 1) hp.2)
    intro x hx
    obtain ⟨y, hy, n, rfl⟩ := mem_assignIdsFrom pfx rest (k + 1) x hx
    simpa [regLE] using hp.1 y hy

/-- C7 (confirmed): both registries returned by the builder are sorted by
`ec_count` descending then `canonical_name` ascending (the relation
`regLE`), and the id at position `i` is the formatted sequential id `i + 1`.
Id assignment is a function of the position in the sorted sequence alone,
and in this pure embedding the builder trivially yields identical
registries on identical input, so two builds over the same records agree. -/
theorem claim7_sorted_ids (d : List (String × ECData)) :
    (build_ece_registry d).Pairwise (fun a b => regLE a b = true) ∧
      (build_ccap_registry d).Pairwise (fun a b => regLE a b = true) ∧
      (∀ i, i < (build_ece_registry d).length →
        ((build_ece_registry d).getD i defaultEntry).id = mkId "ECE-" (i + 1)) ∧
      (∀ i, i < (build_ccap_registry d).length →
        ((build_ccap_registry d).getD i defaultEntry).id = mkId "CCAP-" (i + 1)) := by
  refine ⟨?_, ?_, ?_, ?_⟩
  · exact pairwise_assignIdsFrom _ _ 0
      (pairwise_stableSort regLE regLE_total regLE_trans _)
  · exact pairwise_assignIdsFrom _ _ 0
      (pairwise_stableSort regLE regLE_total regLE_trans _)
  · intro i hi
    simp only [build_ece_registry] at hi ⊢
    rw [assignIdsFrom_getD "ECE-" _ 0 i (by simpa [length_assignIdsFrom] using hi)]
    congr 1
    omega
  · intro i hi
    simp only [build_ccap_registry] at hi ⊢
    rw [assignIdsFrom_getD "CCAP-" _ 0 i (by simpa [length_assignIdsFrom] using hi)]
    congr 1
    omega

/-- Witness for C7 at the concrete scenario input and position 0. -/
theorem claim7_witness :
    0 < (build_ece_registry scenarioData).length ∧
      ((build_ece_registry scenarioData).getD 0 defaultEntry).id =
        mkId "ECE-" (0 + 1) :=
  ⟨by decide, (claim7_sorted_ids scenarioData).2.2.1 0 (by decide)⟩

/-! ## Helper lemmas: group map invariants (for the length floors) -/

theorem lookupAL_mem {β : Type} :
    ∀ (m : List (String × β)) (k : String) (v : β),
      lookupAL m k = some v → (k, v) ∈ m := by
  intro m
  induction m with
  | nil => intro k v h; simp [lookupAL] at h
  | cons q rest ih =>
    intro k v h
    obtain ⟨k2, v2⟩ := q
    by_cases hk : k2 == k
    · simp only [lookupAL, if_pos hk, Option.some.injEq] at h
      subst h
      have : k2 = k := by simpa using hk
      subst this
      exact List.mem_cons_self _ _
    · simp only [lookupAL, if_neg hk] at h
      exact List.mem_cons_of_mem _ (ih k v h)

theorem mem_storeAL {β : Type} :
    ∀ (m : List (String × β)) (k : String) (v : β) (p : String × β),
      p ∈ storeAL m k v → p = (k, v) ∨ p ∈ m := by
  intro m
  induction m with
  | nil =>
    intro k v p hp
    simp only [storeAL, List.mem_singleton] at hp
    exact Or.inl hp
  | cons q rest ih =>
    intro k v p hp
    obtain ⟨k2, v2⟩ := q
    by_cases hk : k2 == k
    · simp only [storeAL, if_pos hk, List.mem_cons] at hp
      rcases hp with rfl | hp2
      · exact Or.inl rfl
      · exact Or.inr (List.mem_cons_of_mem _ hp2)
    · simp only [storeAL, if_neg hk, List.mem_cons] at hp
      rcases hp with rfl | hp2
      · exact Or.inr (List.mem_cons_self _ _)
      · rcases ih k v p hp2 with h | h
        · exact Or.inl h
        · exact Or.inr (List.mem_cons_of_mem _ h)

theorem mem_insertName (x : String) (l : List String) (y : String) :
    y ∈ insertName x l → y = x ∨ y ∈ l := by
  intro hy
  unfold insertName at hy
  split_ifs at hy with h
  · exact Or.inr hy
  · rcases List.mem_append.mp hy with h2 | h2
    · exact Or.inr h2
    · exact Or.inl (by simpa using h2)

theorem insertName_ne_nil (x : String) (l : List String) :
    insertName x l ≠ [] := by
  unfold insertName
  split_ifs with h
  · intro hnil
    subst hnil
    simp at h
  · simp

theorem maxByLen_mem : ∀ (l : List String), l ≠ [] → maxByLen l ∈ l := by
  intro l
  induction l with
  | nil => intro h; exact absurd rfl h
  | cons x rest ih =>
    intro _
    cases rest with
    | nil => simp [maxByLen]
    | cons r rs =>
      simp only [maxByLen]
      split_ifs with h
      · exact List.mem_cons_of_mem _ (ih (by simp))
      · exact List.mem_cons_self _ _

theorem groupInv_nil (floor : Nat) : GroupInv floor [] := by
  intro p hp
  simp at hp

theorem addCertName_inv (m : List (String × NameGroup)) (ec c : String)
    (hm : GroupInv 3 m) : GroupInv 3 (addCertName m ec c) := by
  simp only [addCertName]
  split_ifs with h1 h2
  · exact hm
  · exact hm
  · intro p hp
    rcases mem_storeAL _ _ _ p hp with rfl | hp2
    · constructor
      · exact insertName_ne_nil _ _
      · intro n hn
        rcases mem_insertName _ _ _ hn with rfl | hn2
        · exact ⟨by omega, rfl⟩
        · rcases hlk : lookupAL m (normalize_name c) with _ | g0
          · rw [hlk] at hn2
            simp [emptyGroup] at hn2
          · rw [hlk] at hn2
            simp only [Option.getD_some] at hn2
            exact ((hm _ (lookupAL_mem m _ _ hlk)).2 n hn2)
    · exact hm p hp2

theorem addCourseName_inv (m : List (String × NameGroup)) (ec c : String)
    (hm : GroupInv 5 m) : GroupInv 5 (addCourseName m ec c) := by
  simp only [addCourseName]
  split_ifs with h1 h2
  · exact hm
  · exact hm
  · intro p hp
    rcases mem_storeAL _ _ _ p hp with rfl | hp2
    · constructor
      · exact insertName_ne_nil _ _
      · intro n hn
        rcases mem_insertName _ _ _ hn with rfl | hn2
        · exact ⟨by omega, rfl⟩
        · rcases hlk : lookupAL m (normalize_name c) with _ | g0
          · rw [hlk] at hn2
            simp [emptyGroup] at hn2
          · rw [hlk] at hn2
            simp only [Option.getD_some] at hn2
            exact ((hm _ (lookupAL_mem m _ _ hlk)).2 n hn2)
    · exact hm p hp2

theorem rawEntries_bound (floor : Nat) (pfx : String) :
    ∀ (m : List (String × NameGroup)) (i : Nat), GroupInv floor m →
      ∀ e ∈ rawEntries pfx i m,
        floor ≤ e.canonical_name.length ∧
          (∀ a ∈ e.alternate_names, floor ≤ a.length) ∧
          e.normalized_key = normalize_name e.canonical_name := by
  intro m
  induction m with
  | nil => intro i _ e he; simp [rawEntries] at he
  | cons q rest ih =>
    intro i hm e he
    obtain ⟨k, g⟩ := q
    simp only [rawEntries, List.mem_cons] at he
    rcases he with rfl | he2
    · have hq := hm (k, g) (List.mem_cons_self _ _)
      have hcanon : maxByLen g.names ∈ g.names := maxByLen_mem _ hq.1
      have hc := hq.2 _ hcanon
      refine ⟨hc.1, ?_, ?_⟩
      · intro a ha
        simp only [groupToEntry] at ha
        have := (mem_stableSort strLE _ a).mp ha
        have := (List.mem_filter.mp this).1
        exact (hq.2 a this).1
      · simp only [groupToEntry]
        exact hc.2.symm
    · exact ih (i + 1)
        (fun p hp => hm p (List.mem_cons_of_mem _ hp)) e he2

/-- C6 (corrected, positive part): in both registries every canonical and
alternate name meets the length floor (3 for certifiers, 5 for courses),
and every normalized key is the normalization of its canonical name, which
itself meets the floor — so no below-floor name reaches a registry entry,
directly or through its key.  (The matrix clause of the claim fails; see
the counterexample.) -/
theorem claim6_amended (d : List (String × ECData)) :
    (∀ e ∈ build_ece_registry d,
      3 ≤ e.canonical_name.length ∧
        (∀ a ∈ e.alternate_names, 3 ≤ a.length) ∧
        e.normalized_key = normalize_name e.canonical_name) ∧
      (∀ e ∈ build_ccap_registry d,
        5 ≤ e.canonical_name.length ∧
          (∀ a ∈ e.alternate_names, 5 ≤ a.length) ∧
          e.normalized_key = normalize_name e.canonical_name) := by
  constructor
  · intro e he
    simp only [build_ece_registry] at he
    obtain ⟨y, hy, n, rfl⟩ := mem_assignIdsFrom _ _ _ e he
    have hy2 := (mem_stableSort regLE _ y).mp hy
    have hinv : GroupInv 3 (d.foldl
        (fun m p => p.2.certifiers.foldl (fun m c => addCertName m p.1 c) m) []) := by
      refine foldl_preserve (GroupInv 3) _ ?_ d [] (groupInv_nil 3)
      intro b a hb
      exact foldl_preserve (GroupInv 3) _
        (fun b2 c hb2 => addCertName_inv b2 a.1 c hb2) a.2.certifiers b hb
    have := rawEntries_bound 3 "ECE-" _ 0 hinv y hy2
    simpa using this
  · intro e he
    simp only [build_ccap_registry] at he
    obtain ⟨y, hy, n, rfl⟩ := mem_assignIdsFrom _ _ _ e he
    have hy2 := (mem_stableSort regLE _ y).mp hy
    have hinv : GroupInv 5 (d.foldl
        (fun m p => p.2.courses.foldl (fun m c => addCourseName m p.1 c) m) []) := by
      refine foldl_preserve (GroupInv 5) _ ?_ d [] (groupInv_nil 5)
      intro b a hb
      exact foldl_preserve (GroupInv 5) _
        (fun b2 c hb2 => addCourseName_inv b2 a.1 c hb2) a.2.courses b hb
    have := rawEntries_bound 5 "CCAP-" _ 0 hinv y hy2
    simpa using this

/-- Witness for C6 at the concrete scenario input and its registry entry. -/
theorem claim6_witness :
    3 ≤ scenarioEntry.canonical_name.length ∧
      scenarioEntry.normalized_key = normalize_name scenarioEntry.canonical_name := by
  have h := (claim6_amended scenarioData).1 scenarioEntry (by decide)
  exact ⟨h.1, h.2.2⟩

/-! ## Helper lemmas: coordinator loop -/

theorem runFrom_trace (step : Checkpoint → String → Option ExtRecord → Checkpoint)
    (e : String → Option ExtRecord) :
    ∀ (codes : List String) (cp : Checkpoint),
      (runFrom step e cp codes).2 = codes := by
  intro codes
  induction codes with
  | nil => intro cp; rfl
  | cons c rest ih => intro cp; simp [runFrom, ih]

theorem stepBatch_failed_mono (cp : Checkpoint) (code : String)
    (r : Option ExtRecord) (x : String) (hx : x ∈ cp.failed) :
    x ∈ (stepBatch cp code r).failed := by
  cases r with
  | none => simpa [stepBatch] using Or.inl hx
  | some d =>
    by_cases h : d.certifiers ≠ [] ∨ d.title ≠ ""
    · simpa [stepBatch, h] using hx
    · simpa [stepBatch, h] using Or.inl hx

theorem stepBatch_processed_mono (cp : Checkpoint) (code : String)
    (r : Option ExtRecord) (x : String) (hx : x ∈ cp.processed) :
    x ∈ (stepBatch cp code r).processed := by
  cases r with
  | none => simpa [stepBatch] using hx
  | some d =>
    by_cases h : d.certifiers ≠ [] ∨ d.title ≠ ""
    · simpa [stepBatch, h] using Or.inl hx
    · simpa [stepBatch, h] using hx

theorem stepBatch_covers (cp : Checkpoint) (code : String) (r : Option ExtRecord) :
    code ∈ (stepBatch cp code r).processed ∨ code ∈ (stepBatch cp code r).failed := by
  cases r with
  | none => right; simp [stepBatch]
  | some d =>
    by_cases h : d.certifiers ≠ [] ∨ d.title ≠ ""
    · left; simp [stepBatch, h]
    · right; simp [stepBatch, h]

theorem runFrom_failed_mono
    (step : Checkpoint → String → Option ExtRecord → Checkpoint)
    (hstep : ∀ cp code r x, x ∈ cp.failed → x ∈ (step cp code r).failed)
    (e : String → Option ExtRecord) :
    ∀ (codes : List String) (cp : Checkpoint) (x : String),
      x ∈ cp.failed → x ∈ (runFrom step e cp codes).1.failed := by
  intro codes
  induction codes with
  | nil => intro cp x hx; exact hx
  | cons c rest ih =>
    intro cp x hx
    simpa [runFrom] using ih _ x (hstep cp c (e c) x hx)

theorem runFrom_processed_mono
    (step : Checkpoint → String → Option ExtRecord → Checkpoint)
    (hstep : ∀ cp code r x, x ∈ cp.processed → x ∈ (step cp code r).processed)
    (e : String → Option ExtRecord) :
    ∀ (codes : List String) (cp : Checkpoint) (x : String),
      x ∈ cp.processed → x ∈ (runFrom step e cp codes).1.processed := by
  intro codes
  induction codes with
  | nil => intro cp x hx; exact hx
  | cons c rest ih =>
    intro cp x hx
    simpa [runFrom] using ih _ x (hstep cp c (e c) x hx)

theorem runFrom_covers (e : String → Option ExtRecord) :
    ∀ (codes : List String) (cp : Checkpoint) (c : String), c ∈ codes →
      c ∈ (runFrom stepBatch e cp codes).1.processed ∨
        c ∈ (runFrom stepBatch e cp codes).1.failed := by
  intro codes
  induction codes with
  | nil => intro cp c hc; simp at hc
  | cons c0 rest ih =>
    intro cp c hc
    rcases List.mem_cons.mp hc with rfl | hc2
    · rcases stepBatch_covers cp c (e c) with h | h
      · left
        simpa [runFrom] using
          runFrom_processed_mono stepBatch stepBatch_processed_mono e rest _ c h
      · right
        simpa [runFrom] using
          runFrom_failed_mono stepBatch stepBatch_failed_mono e rest _ c h
    · simpa [runFrom] using ih (stepBatch cp c0 (e c0)) c hc2

/-- C1 (corrected): the second run dispatches the Extractor exactly for the
items of `universe − processed`, in order — so it never re-invokes the
Extractor for an already-processed item, and the number of dispatched items
is the universe size minus the number of universe items already recorded
as processed.  Items in the failed set that are not in `processed` are in
`universe − processed` and hence are re-attempted automatically, with no
reset of the failed set required (see the counterexample). -/
theorem claim1_amended (e : String → Option ExtRecord) (ec_codes : List String)
    (cp : Checkpoint) :
    (mainBatch e ec_codes cp).2 =
        ec_codes.filter (fun c => !cp.processed.contains c) ∧
      (∀ c, c ∈ cp.processed → c ∉ (mainBatch e ec_codes cp).2) ∧
      (mainBatch e ec_codes cp).2.length +
          (ec_codes.filter (fun c => cp.processed.contains c)).length =
        ec_codes.length := by
  have ht : (mainBatch e ec_codes cp).2 =
      ec_codes.filter (fun c => !cp.processed.contains c) :=
    runFrom_trace stepBatch e _ cp
  refine ⟨ht, ?_, ?_⟩
  · intro c hc hmem
    rw [ht] at hmem
    have h2 := (List.mem_filter.mp hmem).2
    simp at h2
    exact h2 hc
  · rw [ht]
    have := List.length_eq_length_filter_add
      (l := ec_codes) (fun c => cp.processed.contains c)
    omega

/-- Witness for C1: an already-processed item is not dispatched again. -/
theorem claim1_witness :
    "EC000" ∈ (⟨["EC000"], [], []⟩ : Checkpoint).processed ∧
      "EC000" ∉
        (mainBatch (fun _ => none) ["EC000", "EC001"]
          (⟨["EC000"], [], []⟩ : Checkpoint)).2 :=
  ⟨by decide,
    (claim1_amended (fun _ => none) ["EC000", "EC001"] ⟨["EC000"], [], []⟩).2.1
      "EC000" (by decide)⟩

/-- C2 (corrected): the batch coordinator performs no reconciliation between
the processed and failed sets: every item in the failed set of the checkpoint is
still in the failed set after any further run (a later success never removes
it), and `save_final` exports the failed list verbatim as `failed_ecs` —
so an item that failed once and succeeded later is reported both as
processed and as failed. -/
theorem claim2_amended (e : String → Option ExtRecord) (codes : List String)
    (cp : Checkpoint) :
    (∀ x ∈ cp.failed, x ∈ (mainBatch e codes cp).1.failed) ∧
      (save_final (mainBatch e codes cp).1).failed_ecs =
        (mainBatch e codes cp).1.failed := by
  constructor
  · intro x hx
    exact runFrom_failed_mono stepBatch stepBatch_failed_mono e _ cp x hx
  · rfl

/-- Witness for C2: the previously failed item is still listed as failed. -/
theorem claim2_witness :
    "EC001" ∈ (mainBatch (fun _ => some goodRec) ["EC001"] failedOnlyCp).1.failed :=
  (claim2_amended (fun _ => some goodRec) ["EC001"] failedOnlyCp).1 "EC001"
    (by decide)

/-- C4 (corrected): in the batch certifiers coordinator a completed fetch is
recorded as a success exactly when the record has a non-empty certifier
list or a non-empty title, and otherwise (or on a failed fetch) the item is
appended to the failed set; the Playwright details coordinator records
every completed fetch as a success, with no emptiness check. -/
theorem claim4_amended (cp : Checkpoint) (code : String) (d : ExtRecord) :
    ((stepBatch cp code (some d)).processed = cp.processed ++ [code] ↔
        (d.certifiers ≠ [] ∨ d.title ≠ "")) ∧
      ((stepBatch cp code (some d)).failed = cp.failed ++ [code] ↔
        ¬(d.certifiers ≠ [] ∨ d.title ≠ "")) ∧
      (stepPW cp code (some d)).processed = cp.processed ++ [code] ∧
      (stepBatch cp code none).failed = cp.failed ++ [code] := by
  have hnp : cp.processed ≠ cp.processed ++ [code] := by
    intro h
    have := congrArg List.length h
    simp at this
  have hnf : cp.failed ≠ cp.failed ++ [code] := by
    intro h
    have := congrArg List.length h
    simp at this
  refine ⟨?_, ?_, ?_, ?_⟩
  · by_cases h : d.certifiers ≠ [] ∨ d.title ≠ ""
    · simp [stepBatch, h]
    · simp only [stepBatch, if_neg h]
      exact iff_of_false hnp h
  · by_cases h : d.certifiers ≠ [] ∨ d.title ≠ ""
    · simp only [stepBatch, if_pos h]
      exact iff_of_false hnf (not_not_intro h)
    · simp only [stepBatch, if_neg h]
      simpa using h
  · simp [stepPW]
  · simp [stepBatch]

/-! ## Helper lemmas: retry closed forms -/

theorem processECBatch_zero (a : Nat → Option ExtRecord) :
    processECBatch a 0 = (a 0).or ((a 1).or (a 2)) := by
  rcases h0 : a 0 with _ | d0 <;> rcases h1 : a 1 with _ | d1 <;>
    rcases h2 : a 2 with _ | d2 <;>
    simp [processECBatch, h0, h1, h2, Option.or]

theorem processECPW_zero (a : Nat → Option ExtRecord) :
    processECPW a 0 = (a 0).or ((a 1).or ((a 2).or (a 3))) := by
  rcases h0 : a 0 with _ | d0 <;> rcases h1 : a 1 with _ | d1 <;>
    rcases h2 : a 2 with _ | d2 <;> rcases h3 : a 3 with _ | d3 <;>
    simp [processECPW, MAX_RETRIES, h0, h1, h2, h3, Option.or]

/-- C9 (corrected): the retry recursion of the batch extractor runs at most
attempts 0, 1, 2 — its result depends only on those attempts and exhausting
them yields a Failure — but the Playwright extractor uses
`MAX_RETRIES = 3` and runs up to four attempts, so the uniform ceiling of
2 retries (3 attempts total) claimed for the Extractor does not hold (see
the counterexample).  In both, the recursion terminates (the functions are
total), a Failure is recorded for the failing item only, and the
coordinator loop records every dispatched item as processed or failed and
continues to the end. -/
theorem claim9_amended :
    (∀ a : Nat → Option ExtRecord,
        a 0 = none → a 1 = none → a 2 = none → processECBatch a 0 = none) ∧
      (∀ a b : Nat → Option ExtRecord, (∀ i, i ≤ 2 → a i = b i) →
        processECBatch a 0 = processECBatch b 0) ∧
      (∀ a : Nat → Option ExtRecord,
        a 0 = none → a 1 = none → a 2 = none → a 3 = none →
          processECPW a 0 = none) ∧
      (∀ a b : Nat → Option ExtRecord, (∀ i, i ≤ 3 → a i = b i) →
        processECPW a 0 = processECPW b 0) ∧
      (∀ (e : String → Option ExtRecord) (codes : List String) (cp : Checkpoint)
          (c : String), c ∈ (mainBatch e codes cp).2 →
        c ∈ (mainBatch e codes cp).1.processed ∨
          c ∈ (mainBatch e codes cp).1.failed) := by
  refine ⟨?_, ?_, ?_, ?_, ?_⟩
  · intro a h0 h1 h2
    rw [processECBatch_zero, h0, h1, h2]
    rfl
  · intro a b h
    rw [processECBatch_zero, processECBatch_zero,
      h 0 (by omega), h 1 (by omega), h 2 (by omega)]
  · intro a h0 h1 h2 h3
    rw [processECPW_zero, h0, h1, h2, h3]
    rfl
  · intro a b h
    rw [processECPW_zero, processECPW_zero,
      h 0 (by omega), h 1 (by omega), h 2 (by omega), h 3 (by omega)]
  · intro e codes cp c hc
    simp only [mainBatch] at hc ⊢
    rw [runFrom_trace stepBatch e _ cp] at hc
    exact runFrom_covers e _ cp c hc

/-- Witness for C9: exhausted attempts yield a Failure in both extractors. -/
theorem claim9_witness :
    processECBatch (fun _ => none) 0 = none ∧
      processECPW (fun _ => none) 0 = none :=
  ⟨claim9_amended.1 (fun _ => none) rfl rfl rfl,
    claim9_amended.2.2.1 (fun _ => none) rfl rfl rfl rfl⟩

/-! ## Helper lemmas: determinizing the embedded matcher (for the
classification claim) -/

theorem matchCh_nil (c : Char) : matchCh c [] = [] := rfl

theorem matchCh_cons_self (c : Char) (rest : List Char) :
    matchCh c (c :: rest) = [rest] := by simp [matchCh]

theorem matchCh_cons_ne (c x : Char) (h : ¬x = c) (rest : List Char) :
    matchCh c (x :: rest) = [] := by simp [matchCh, h]

theorem matchOptDot_isEmpty : ∀ l : List Char, (matchOptDot l).isEmpty = false := by
  intro l
  cases l with
  | nil => rfl
  | cons c rest => by_cases h : (c == '.') = true <;> simp [matchOptDot, h]

theorem optDot_matchCh_k (c : Char) (hc : ¬('.' : Char) = c)
    (k : List Char → List (List Char)) (l : List Char) :
    (matchOptDot l).flatMap (fun r => (matchCh c r).flatMap k) =
      (matchCh c (eatDot l)).flatMap k := by
  cases l with
  | nil => simp [matchOptDot, eatDot, matchCh]
  | cons x rest =>
    by_cases hx : x = '.'
    · subst hx
      have h1 : matchOptDot ('.' :: rest) = [rest, '.' :: rest] := by
        simp [matchOptDot]
      have h2 : eatDot ('.' :: rest) = rest := by simp [eatDot]
      rw [h1, h2, List.flatMap_cons, List.flatMap_cons, List.flatMap_nil,
        List.append_nil, matchCh_cons_ne c '.' hc rest]
      simp
    · have h1 : matchOptDot (x :: rest) = [x :: rest] := by simp [matchOptDot, hx]
      have h2 : eatDot (x :: rest) = x :: rest := by simp [eatDot, hx]
      rw [h1, h2, List.flatMap_cons, List.flatMap_nil, List.append_nil]

theorem wsStar_matchCh_k (c : Char) (hws : isWs c = false)
    (k : List Char → List (List Char)) :
    ∀ l : List Char,
      (wsStarRems l).flatMap (fun r => (matchCh c r).flatMap k) =
        (matchCh c (wsSkip l)).flatMap k := by
  intro l
  induction l with
  | nil => simp [wsStarRems, wsSkip, matchCh]
  | cons x rest ih =>
    by_cases hx : isWs x = true
    · have hxc : ¬x = c := by
        intro h
        rw [h] at hx
        rw [hx] at hws
        cases hws
      simp only [wsStarRems, if_pos hx, List.flatMap_cons, List.flatMap_append,
        matchCh_cons_ne c x hxc rest, List.flatMap_nil, List.nil_append, ih]
      simp only [wsSkip]
      rw [List.dropWhile_cons_of_pos hx]
    · simp only [wsStarRems, if_neg hx, List.flatMap_cons, List.flatMap_nil,
        List.append_nil]
      simp only [wsSkip]
      rw [List.dropWhile_cons_of_neg hx]

theorem optDot_wsStar_matchCh_k (c : Char) (hdot : ¬('.' : Char) = c)
    (hws : isWs c = false) (k : List Char → List (List Char)) (l : List Char) :
    (matchOptDot l).flatMap
        (fun r => (wsStarRems r).flatMap (fun r2 => (matchCh c r2).flatMap k)) =
      (matchCh c (wsSkip (eatDot l))).flatMap k := by
  cases l with
  | nil =>
    have h1 : matchOptDot ([] : List Char) = [[]] := rfl
    have h2 : eatDot ([] : List Char) = [] := rfl
    rw [h1, h2, List.flatMap_cons, List.flatMap_nil, List.append_nil]
    exact wsStar_matchCh_k c hws k []
  | cons x rest =>
    by_cases hx : x = '.'
    · subst hx
      have h1 : matchOptDot ('.' :: rest) = [rest, '.' :: rest] := by
        simp [matchOptDot]
      have h2 : eatDot ('.' :: rest) = rest := by simp [eatDot]
      rw [h1, h2, List.flatMap_cons, List.flatMap_cons, List.flatMap_nil,
        List.append_nil]
      rw [wsStar_matchCh_k c hws k rest, wsStar_matchCh_k c hws k ('.' :: rest)]
      have hskip : wsSkip ('.' :: rest) = '.' :: rest := by
        simp only [wsSkip]
        rw [List.dropWhile_cons_of_neg]
        decide
      rw [hskip, matchCh_cons_ne c '.' hdot rest]
      simp
    · have h1 : matchOptDot (x :: rest) = [x :: rest] := by simp [matchOptDot, hx]
      have h2 : eatDot (x :: rest) = x :: rest := by simp [eatDot, hx]
      rw [h1, h2, List.flatMap_cons, List.flatMap_nil, List.append_nil]
      exact wsStar_matchCh_k c hws k (x :: rest)

theorem alt2_collapse (l : List Char) :
    alt2Rems l =
      (matchCh 's' l).flatMap (fun r1 =>
        (matchCh 'c' (eatDot r1)).flatMap matchOptDot) := by
  unfold alt2Rems
  simp only [List.flatMap_assoc]
  simp only [optDot_matchCh_k 'c' (by decide)]

theorem alt1_collapse (l : List Char) :
    alt1Rems l =
      (matchCh 's' l).flatMap (fun r1 =>
        (matchCh 'a' (eatDot r1)).flatMap (fun r2 =>
          (matchCh 'd' (wsSkip (eatDot r2))).flatMap (fun r3 =>
            (matchCh 'e' r3).flatMap (fun r4 =>
              (matchCh 'c' (wsSkip r4)).flatMap (fun r5 =>
                (matchCh 'v' (eatDot r5)).flatMap matchOptDot))))) := by
  unfold alt1Rems
  simp only [List.flatMap_assoc]
  simp only [optDot_matchCh_k 'a' (by decide), optDot_matchCh_k 'v' (by decide),
    optDot_wsStar_matchCh_k 'd' (by decide) (by decide),
    wsStar_matchCh_k 'c' (by decide)]

theorem alt2_isEmpty : ∀ l, (alt2Rems l).isEmpty = !(scAt l) := by
  intro l
  rw [alt2_collapse]
  cases l with
  | nil => rfl
  | cons x r =>
    by_cases hx : x = 's'
    · subst hx
      rw [matchCh_cons_self]
      simp only [List.flatMap_cons, List.flatMap_nil, List.append_nil]
      rcases h1 : eatDot r with _ | ⟨y, r2⟩
      · simp [scAt, h1, matchCh]
      · by_cases hy : y = 'c'
        · subst hy
          rw [matchCh_cons_self]
          simp [scAt, h1, matchOptDot_isEmpty]
        · rw [matchCh_cons_ne 'c' y hy r2]
          simp [scAt, h1, hy]
    · rw [matchCh_cons_ne 's' x hx r]
      simp [scAt, hx]

theorem alt3_isEmpty : ∀ l, (alt3Rems l).isEmpty = !(acAt l) := by
  intro l
  have hcol : alt3Rems l =
      (matchCh 'a' l).flatMap (fun r1 =>
        (matchCh 'c' (eatDot r1)).flatMap matchOptDot) := by
    unfold alt3Rems
    simp only [List.flatMap_assoc]
    simp only [optDot_matchCh_k 'c' (by decide)]
  rw [hcol]
  cases l with
  | nil => rfl
  | cons x r =>
    by_cases hx : x = 'a'
    · subst hx
      rw [matchCh_cons_self]
      simp only [List.flatMap_cons, List.flatMap_nil, List.append_nil]
      rcases h1 : eatDot r with _ | ⟨y, r2⟩
      · simp [acAt, h1, matchCh]
      · by_cases hy : y = 'c'
        · subst hy
          rw [matchCh_cons_self]
          simp [acAt, h1, matchOptDot_isEmpty]
        · rw [matchCh_cons_ne 'c' y hy r2]
          simp [acAt, h1, hy]
    · rw [matchCh_cons_ne 'a' x hx r]
      simp [acAt, hx]

theorem alt1_isEmpty : ∀ l, (alt1Rems l).isEmpty = !(saDeCvAt l) := by
  intro l
  rw [alt1_collapse]
  cases l with
  | nil => rfl
  | cons x r1 =>
    by_cases hx : x = 's'
    case neg =>
      rw [matchCh_cons_ne 's' x hx r1]
      simp [saDeCvAt, hx]
    case pos =>
      subst hx
      rw [matchCh_cons_self]
      simp only [List.flatMap_cons, List.flatMap_nil, List.append_nil]
      rcases h1 : eatDot r1 with _ | ⟨c2, r2⟩
      · simp [saDeCvAt, h1, matchCh]
      by_cases h2 : c2 = 'a'
      case neg =>
        rw [matchCh_cons_ne 'a' c2 h2 r2]
        simp [saDeCvAt, h1, h2]
      case pos =>
        subst h2
        rw [matchCh_cons_self]
        simp only [List.flatMap_cons, List.flatMap_nil, List.append_nil]
        rcases h3 : wsSkip (eatDot r2) with _ | ⟨c3, r3⟩
        · simp [saDeCvAt, h1, h3, matchCh]
        by_cases h4 : c3 = 'd'
        case neg =>
          rw [matchCh_cons_ne 'd' c3 h4 r3]
          simp [saDeCvAt, h1, h3, h4]
        case pos =>
          subst h4
          rw [matchCh_cons_self]
          simp only [List.flatMap_cons, List.flatMap_nil, List.append_nil]
          cases r3 with
          | nil => simp [saDeCvAt, h1, h3, matchCh]
          | cons c4 r4 =>
            by_cases h5 : c4 = 'e'
            case neg =>
              rw [matchCh_cons_ne 'e' c4 h5 r4]
              simp [saDeCvAt, h1, h3, h5]
            case pos =>
              subst h5
              rw [matchCh_cons_self]
              simp only [List.flatMap_cons, List.flatMap_nil, List.append_nil]
              rcases h6 : wsSkip r4 with _ | ⟨c5, r5⟩
              · simp [saDeCvAt, h1, h3, h6, matchCh]
              by_cases h7 : c5 = 'c'
              case neg =>
                rw [matchCh_cons_ne 'c' c5 h7 r5]
                simp [saDeCvAt, h1, h3, h6, h7]
              case pos =>
                subst h7
                rw [matchCh_cons_self]
                simp only [List.flatMap_cons, List.flatMap_nil, List.append_nil]
                rcases h8 : eatDot r5 with _ | ⟨c6, r6⟩
                · simp [saDeCvAt, h1, h3, h6, h8, matchCh]
                by_cases h9 : c6 = 'v'
                case neg =>
                  rw [matchCh_cons_ne 'v' c6 h9 r6]
                  simp [saDeCvAt, h1, h3, h6, h8, h9]
                case pos =>
                  subst h9
                  rw [matchCh_cons_self]
                  simp [saDeCvAt, h1, h3, h6, h8, matchOptDot_isEmpty]

theorem searchAny_alt2 : ∀ l, searchAny alt2Rems l = hasSC l := by
  intro l
  induction l with
  | nil => rfl
  | cons c rest ih =>
    simp only [searchAny, hasSC, alt2_isEmpty, Bool.not_not, ih]

theorem searchAny_alt3 : ∀ l, searchAny alt3Rems l = hasAC l := by
  intro l
  induction l with
  | nil => rfl
  | cons c rest ih =>
    simp only [searchAny, hasAC, alt3_isEmpty, Bool.not_not, ih]

theorem searchAny_alt1 : ∀ l, searchAny alt1Rems l = hasSAdeCV l := by
  intro l
  induction l with
  | nil => rfl
  | cons c rest ih =>
    simp only [searchAny, hasSAdeCV, alt1_isEmpty, Bool.not_not, ih]


/-- C10 (confirmed): the legal-form classification is an unanchored,
case-insensitive search over the whole raw name in the fixed priority
order — equal to the direct containment characterization `classifySpec`
(SA-de-CV pattern anywhere, else `s` and `c` adjacent anywhere with
optional periods, else `a` and `c` adjacent anywhere, else Unknown) — so
a name merely containing `sc` inside an ordinary word, such as
"Escuela Nacional", is tagged `"SC"`. -/
theorem claim10_unanchored_classification :
    (∀ name, (extract_entity_info name).entity_type = classifySpec name) ∧
      (extract_entity_info "Escuela Nacional").entity_type = "SC" := by
  constructor
  · intro name
    simp only [extract_entity_info, classifySpec, searchAny_alt1, searchAny_alt2,
      searchAny_alt3]
  · decide

/-! ## Helper lemmas: `normalize_name` as a fixed point -/

theorem toNat_ofNat_valid (n : Nat) (h : n.isValidChar) :
    (Char.ofNat n).toNat = n := by
  simp [Char.ofNat, h, Char.ofNatAux, Char.toNat, UInt32.toNat]

theorem toLower_idem (c : Char) :
    Char.toLower (Char.toLower c) = Char.toLower c := by
  unfold Char.toLower
  by_cases h : 65 ≤ c.toNat ∧ c.toNat ≤ 90
  · have hv : (c.toNat + 32).isValidChar := by
      left
      omega
    rw [if_pos h]
    have ht : (Char.ofNat (c.toNat + 32)).toNat = c.toNat + 32 :=
      toNat_ofNat_valid _ hv
    rw [if_neg]
    rw [ht]
    omega
  · rw [if_neg h, if_neg h]

theorem mem_trimChars (l : List Char) (c : Char) (hc : c ∈ trimChars l) :
    c ∈ l := by
  unfold trimChars at hc
  rw [List.mem_reverse] at hc
  have h1 : c ∈ (l.dropWhile isWs).reverse :=
    (List.dropWhile_suffix isWs).subset hc
  rw [List.mem_reverse] at h1
  exact (List.dropWhile_suffix isWs).subset h1

theorem mem_stripLegalSuffix :
    ∀ (l : List Char) (c : Char), c ∈ stripLegalSuffix l → c ∈ l := by
  intro l
  induction l with
  | nil => intro c hc; simp [stripLegalSuffix] at hc
  | cons x rest ih =>
    intro c hc
    by_cases h : suffixMatchEnd (x :: rest) = true
    · simp [stripLegalSuffix, h] at hc
    · simp only [stripLegalSuffix, if_neg h, List.mem_cons] at hc
      rcases hc with rfl | hc2
      · exact List.mem_cons_self _ _
      · exact List.mem_cons_of_mem _ (ih c hc2)

theorem mem_collapseWs :
    ∀ (l : List Char) (c : Char), c ∈ collapseWs l → c = spaceChar ∨ c ∈ l := by
  intro l
  induction l with
  | nil => intro c hc; simp [collapseWs] at hc
  | cons x ls ih =>
    intro c hc
    cases ls with
    | nil =>
      by_cases hx : isWs x = true
      · simp [collapseWs, hx] at hc
        exact Or.inl hc
      · simp [collapseWs, hx] at hc
        exact Or.inr (by simp [hc])
    | cons y rest =>
      by_cases hb : (isWs x && isWs y) = true
      · simp only [collapseWs, if_pos hb] at hc
        rcases ih c hc with h | h
        · exact Or.inl h
        · exact Or.inr (List.mem_cons_of_mem _ h)
      · simp only [collapseWs, if_neg hb, List.mem_cons] at hc
        rcases hc with rfl | hc2
        · by_cases hx : isWs x = true
          · left
            simp [hx]
          · right
            simp [hx]
        · rcases ih c hc2 with h | h
          · exact Or.inl h
          · exact Or.inr (List.mem_cons_of_mem _ h)

theorem collapseWs_ws_space :
    ∀ (l : List Char) (c : Char), c ∈ collapseWs l → isWs c = true → c = spaceChar := by
  intro l
  induction l with
  | nil => intro c hc _; simp [collapseWs] at hc
  | cons x ls ih =>
    intro c hc hw
    cases ls with
    | nil =>
      by_cases hx : isWs x = true
      · simp [collapseWs, hx] at hc
        exact hc
      · simp [collapseWs, hx] at hc
        subst hc
        rw [hw] at hx
        cases hx rfl
    | cons y rest =>
      by_cases hb : (isWs x && isWs y) = true
      · simp only [collapseWs, if_pos hb] at hc
        exact ih c hc hw
      · simp only [collapseWs, if_neg hb, List.mem_cons] at hc
        rcases hc with rfl | hc2
        · by_cases hx : isWs x = true
          · simp [hx]
          · simp only [if_neg hx] at hw
            exact absurd hw hx
        · exact ih c hc2 hw

theorem mem_removePunct (l : List Char) (c : Char) (hc : c ∈ removePunct l) :
    c ∈ l :=
  (List.mem_filter.mp hc).1

theorem removePunct_no_punct (l : List Char) (c : Char) (hc : c ∈ removePunct l) :
    isPunctSep c = false := by
  have := (List.mem_filter.mp hc).2
  simpa using this

theorem lowerStr_fix :
    ∀ l : List Char, (∀ c ∈ l, Char.toLower c = c) → lowerStr l = l := by
  intro l
  induction l with
  | nil => intro _; rfl
  | cons x rest ih =>
    intro h
    show Char.toLower x :: List.map Char.toLower rest = x :: rest
    rw [h x (List.mem_cons_self _ _)]
    congr 1
    exact ih (fun c hc => h c (List.mem_cons_of_mem _ hc))

theorem removePunct_fix (l : List Char)
    (h : ∀ c ∈ l, isPunctSep c = false) : removePunct l = l := by
  unfold removePunct
  rw [List.filter_eq_self]
  intro c hc
  simp [h c hc]

theorem collapseWs_fix :
    ∀ l : List Char, noAdjWs l = true →
      (∀ c ∈ l, isWs c = true → c = spaceChar) → collapseWs l = l := by
  intro l
  induction l with
  | nil => intro _ _; rfl
  | cons x ls ih =>
    intro hadj hsp
    cases ls with
    | nil =>
      by_cases hx : isWs x = true
      · have hxs := hsp x (List.mem_cons_self _ _) hx
        simp [collapseWs, hx, hxs]
      · simp [collapseWs, hx]
    | cons y rest =>
      have hadj2 : (!(isWs x && isWs y)) = true ∧ noAdjWs (y :: rest) = true := by
        simpa [noAdjWs] using hadj
      have hb : (isWs x && isWs y) = false := by
        rcases (by simpa using hadj2.1 : isWs x = false ∨ isWs y = false) with h | h <;>
          simp [h]
      simp only [collapseWs, hb, Bool.false_eq_true, if_false]
      have htail := ih hadj2.2
        (fun c hc hw => hsp c (List.mem_cons_of_mem _ hc) hw)
      rw [htail]
      congr 1
      by_cases hx : isWs x = true
      · rw [if_pos hx]
        exact (hsp x (List.mem_cons_self _ _) hx).symm
      · rw [if_neg hx]

theorem dropWhile_idem (p : Char → Bool) :
    ∀ l : List Char, List.dropWhile p (List.dropWhile p l) = List.dropWhile p l := by
  intro l
  induction l with
  | nil => rfl
  | cons x rest ih =>
    by_cases hx : p x = true
    · rw [List.dropWhile_cons_of_pos hx]
      exact ih
    · rw [List.dropWhile_cons_of_neg hx, List.dropWhile_cons_of_neg hx]

theorem dropWhile_head_false (p : Char → Bool) :
    ∀ (l : List Char) (x : Char) (xs : List Char),
      List.dropWhile p l = x :: xs → p x = false := by
  intro l
  induction l with
  | nil => intro x xs h; simp at h
  | cons y rest ih =>
    intro x xs h
    by_cases hy : p y = true
    · rw [List.dropWhile_cons_of_pos hy] at h
      exact ih x xs h
    · rw [List.dropWhile_cons_of_neg hy] at h
      injection h with h1 h2
      subst h1
      simpa using hy

theorem trimChars_idem (l : List Char) :
    trimChars (trimChars l) = trimChars l := by
  unfold trimChars
  set a := l.dropWhile isWs with ha
  set b := a.reverse.dropWhile isWs with hb
  have hstep1 : b.reverse.dropWhile isWs = b.reverse := by
    rcases hbr : b.reverse with _ | ⟨x, xs⟩
    · rfl
    · have hpre : b.reverse <+: a := by
        have hsuf : b <:+ a.reverse := by
          rw [hb]
          exact List.dropWhile_suffix isWs
        have h2 := List.reverse_prefix.mpr hsuf
        simpa using h2
      obtain ⟨t, htl⟩ := hpre
      rw [hbr] at htl
      have hxa : List.dropWhile isWs l = x :: (xs ++ t) := by
        rw [← ha, ← htl]
        simp
      have hxf : isWs x = false := dropWhile_head_false isWs l x (xs ++ t) hxa
      rw [List.dropWhile_cons_of_neg (by simp [hxf])]
  rw [hstep1, List.reverse_reverse]
  have hstep2 : b.dropWhile isWs = b := by
    rw [hb]
    exact dropWhile_idem isWs a.reverse
  rw [hstep2]

theorem normalize_chars_lower (s : String) :
    ∀ c ∈ (normalize_name s).data, Char.toLower c = c := by
  intro c hc
  unfold normalize_name at hc
  split_ifs at hc with h
  · simp at hc
  · have hc2 : c ∈ trimChars (removePunct (collapseWs
        (stripLegalSuffix (trimChars (lowerStr s.data))))) := hc
    have hc3 := mem_removePunct _ _ (mem_trimChars _ _ hc2)
    rcases mem_collapseWs _ _ hc3 with rfl | hc5
    · rfl
    · have hc7 := mem_trimChars _ _ (mem_stripLegalSuffix _ _ hc5)
      obtain ⟨c0, _, rfl⟩ := List.mem_map.mp hc7
      exact toLower_idem c0

theorem normalize_ws_space (s : String) :
    ∀ c ∈ (normalize_name s).data, isWs c = true → c = spaceChar := by
  intro c hc hw
  unfold normalize_name at hc
  split_ifs at hc with h
  · simp at hc
  · have hc2 : c ∈ trimChars (removePunct (collapseWs
        (stripLegalSuffix (trimChars (lowerStr s.data))))) := hc
    have hc3 := mem_removePunct _ _ (mem_trimChars _ _ hc2)
    exact collapseWs_ws_space _ _ hc3 hw

theorem normalize_no_punct (s : String) :
    ∀ c ∈ (normalize_name s).data, isPunctSep c = false := by
  intro c hc
  unfold normalize_name at hc
  split_ifs at hc with h
  · simp at hc
  · have hc2 : c ∈ trimChars (removePunct (collapseWs
        (stripLegalSuffix (trimChars (lowerStr s.data))))) := hc
    exact removePunct_no_punct _ _ (mem_trimChars _ _ hc2)

theorem normalize_trim_fix (s : String) :
    trimChars (normalize_name s).data = (normalize_name s).data := by
  unfold normalize_name
  split_ifs with h
  · rfl
  · exact trimChars_idem _

theorem normalize_fix (t : String)
    (hlow : ∀ c ∈ t.data, Char.toLower c = c)
    (htrim : trimChars t.data = t.data)
    (hstrip : stripLegalSuffix t.data = t.data)
    (hcol : collapseWs t.data = t.data)
    (hpunct : removePunct t.data = t.data) :
    normalize_name t = t := by
  unfold normalize_name
  by_cases ht : t.data = []
  · rw [if_pos ht]
    obtain ⟨td⟩ := t
    simp only at ht
    subst ht
    rfl
  · rw [if_neg ht]
    rw [lowerStr_fix t.data hlow, htrim, hstrip, hcol, hpunct, htrim]

/-- C8 (corrected): `normalize` is a fixed point after one application for
every input whose normalized form contains no adjacent whitespace pair and
no remaining end-anchored legal-suffix match.  (Full idempotence fails:
punctuation removal runs after whitespace collapse and can create a double
space, or expose a fresh suffix match, that only a second application
handles — see the counterexample.)  The remaining stages are fixed points
on the output by construction: its characters are lowercase, its
whitespace consists of single spaces, it carries no separator punctuation,
and it is trimmed. -/
theorem claim8_amended (s : String)
    (h1 : noAdjWs (normalize_name s).data = true)
    (h2 : stripLegalSuffix (normalize_name s).data = (normalize_name s).data) :
    normalize_name (normalize_name s) = normalize_name s :=
  normalize_fix (normalize_name s)
    (normalize_chars_lower s)
    (normalize_trim_fix s)
    h2
    (collapseWs_fix _ h1 (normalize_ws_space s))
    (removePunct_fix _ (normalize_no_punct s))

/-- Witness for C8 at the concrete input "abc def". -/
theorem claim8_witness :
    noAdjWs (normalize_name "abc def").data = true ∧
      stripLegalSuffix (normalize_name "abc def").data =
        (normalize_name "abc def").data ∧
      normalize_name (normalize_name "abc def") = normalize_name "abc def" :=
  ⟨by decide, by decide, claim8_amended "abc def" (by decide) (by decide)⟩
